import Mathlib

set_option maxHeartbeats 1000000

/-! Shallow embedding of `src/kde_python_file_search.py`.

Python strings are modelled as lists of characters (`Str`); the filesystem
tree walked by `os.walk` is modelled by the inductive type `Dir`; the
`threading.Event` cancellation flag is modelled by the index of the first
`is_set()` call that returns `True` (an `Option Nat`: `none` means the flag
is never set, which is sound because the flag is monotone — once set it
stays set, so every real execution corresponds to some threshold).
The PyQt signals `found`, `progress`, `finished` become an `Event` trace. -/

abbrev Str := List Char

/-- ASCII whitespace stripped by Python `str.strip()` / split by `str.split()`. -/
def isWS (c : Char) : Bool :=
  c = ' ' || c = '\t' || c = '\n' || c = '\r' || c = Char.ofNat 11 || c = Char.ofNat 12

/-- Python `str.strip()`: remove leading and trailing whitespace. -/
def pyStrip (s : Str) : Str :=
  ((s.dropWhile isWS).reverse.dropWhile isWS).reverse

/-- Python `str.lower()`, modelled on ASCII characters. -/
def lowerStr (s : Str) : Str := s.map Char.toLower

/-- `needle` begins `hay`. -/
def isPre : Str → Str → Bool
  | [], _ => true
  | _ :: _, [] => false
  | a :: as, b :: bs => a = b && isPre as bs

/-- Python substring test `needle in hay`. -/
def isSubstr (needle hay : Str) : Bool :=
  (List.range (hay.length + 1)).any fun i => isPre needle (hay.drop i)

/-- `os.path.basename`: the part after the last slash. -/
def basename (s : Str) : Str :=
  (s.reverse.takeWhile fun c => c ≠ '/').reverse

/-- Separator inserted by `os.path.join(p, f)` (for `f` not absolute): a slash
unless `p` is empty or already ends with a slash. -/
def sepOf (p : Str) : Str := if p = [] ∨ p.getLast? = some '/' then [] else ['/']

/-- `os.path.join(p, f)` for a relative second component `f`. -/
def pathJoin (p f : Str) : Str := p ++ sepOf p ++ f

/-- Helper for `splitWS`: `cur` is the current field, reversed. -/
def splitWSGo : Str → Str → List Str
  | [], cur => if cur = [] then [] else [cur.reverse]
  | c :: cs, cur =>
    if isWS c then
      if cur = [] then splitWSGo cs [] else cur.reverse :: splitWSGo cs []
    else splitWSGo cs (c :: cur)

/-- Python `str.split()` with no arguments: split on whitespace runs, no empty fields. -/
def splitWS (s : Str) : List Str := splitWSGo s []

/-- Lexicographic comparison of strings by character code, as Python compares strings. -/
def strLe : Str → Str → Bool
  | [], _ => true
  | _ :: _, [] => false
  | a :: as, b :: bs => if a = b then strLe as bs else decide (a < b)

def insertSorted (x : Str) : List Str → List Str
  | [] => [x]
  | y :: ys => if strLe x y then x :: y :: ys else y :: insertSorted x ys

/-- Python `sorted()` on a list of strings (insertion sort; for the total
order `strLe` every correct sort produces the same list). -/
def sortStr (l : List Str) : List Str := l.foldr insertSorted []

/-- Python `sorted(set(l))`. -/
def pySortedSet (l : List Str) : List Str := sortStr l.dedup

/-- Device-path test of `find_mounts_external` (line 46 of the source):
`dev.startswith('/dev/sd') or dev.startswith('/dev/mmcblk') or dev.startswith('/dev/nvme')`. -/
def extDev (dev : Str) : Bool :=
  isPre ("/dev/sd".data) dev || isPre ("/dev/mmcblk".data) dev || isPre ("/dev/nvme".data) dev

/-- One line of the mount table, as processed by the loop body of
`find_mounts_external`: fields `dev mnt ...`; lines with fewer than two
fields are skipped, and only external-device lines contribute their mount point. -/
def mountOfLine (line : Str) : Option Str :=
  match splitWS line with
  | dev :: mnt :: _ => if extDev dev then some mnt else none
  | _ => none

/-- `find_mounts_external()`: the input is the line list of `/proc/mounts`,
or `none` when opening the file raises (missing file, permission denied),
in which case the `except: pass` path returns the empty collection. -/
def find_mounts_ext : Option (List Str) → List Str
  | none => []
  | some lines => pySortedSet (lines.filterMap mountOfLine)

/-! The search worker (`SearchWorker`, lines 53-84). -/

/-- A directory tree as seen by `os.walk` (top-down): the directory's own
name, the `filenames` list and the child directories, in listing order.
Unreadable subtrees are simply absent (`onerror=lambda e: None` skips them). -/
inductive Dir where
  | node (name : Str) (files : List Str) (subdirs : List Dir)

def Dir.name : Dir → Str
  | .node n _ _ => n

def Dir.files : Dir → List Str
  | .node _ fs _ => fs

def Dir.subdirs : Dir → List Dir
  | .node _ _ ds => ds

mutual
/-- `os.walk(p)` on the tree `d` rooted at path `p`, top-down: the sequence of
`(dirpath, filenames)` pairs, in visiting order. -/
def walk (p : Str) : Dir → List (Str × List Str)
  | .node _ fs subs => (p, fs) :: walkL p subs

def walkL (p : Str) : List Dir → List (Str × List Str)
  | [] => []
  | d :: ds => walk (pathJoin p d.name) d ++ walkL p ds
end

/-- The Qt signals emitted by `SearchWorker.run`. -/
inductive Event where
  | found (path : Str)
  | progress (n : Nat)
  | finished
  deriving DecidableEq

/-- Value of `self._stop_event.is_set()` at the i-th call of the run
(0-indexed).  `cancelAt = some n` means the flag is first seen set at call
`n`; `none` means it is never set (an uncancelled run). -/
def flagAt : Option Nat → Nat → Bool
  | none, _ => false
  | some n, i => n ≤ i

/-- The inner `for fname in filenames` loop (lines 74-80): returns the
emitted events, the next `is_set()` call index, and whether the loop
returned early because the flag was seen set (in which case `finished`
has been emitted and the whole run stops). -/
def runFiles (kw dirpath : Str) (cancelAt : Option Nat) :
    List Str → Nat → List Event × Nat × Bool
  | [], c => ([], c, false)
  | f :: fs, c =>
    if flagAt cancelAt c then ([Event.finished], c + 1, true)
    else
      let ev := if isSubstr kw (lowerStr f) then [Event.found (pathJoin dirpath f)] else []
      let rest := runFiles kw dirpath cancelAt fs (c + 1)
      (ev ++ rest.1, rest.2.1, rest.2.2)

/-- The body of `SearchWorker.run` (lines 64-84) over the flattened walk of
all roots: `c` is the index of the next `is_set()` call and `total` the
visited-directory counter.  Per directory: check the flag (return after a
sole `finished` if set), emit the directory path if its base name contains
the keyword, run the file loop, then `total += 1` and emit `progress total`
when `total % 500 == 0`.  After the last directory, emit `finished`. -/
def runEntries (kw : Str) (cancelAt : Option Nat) :
    List (Str × List Str) → Nat → Nat → List Event
  | [], _, _ => [Event.finished]
  | (dp, fs) :: rest, c, total =>
    if flagAt cancelAt c then [Event.finished]
    else
      let dev := if isSubstr kw (lowerStr (basename dp)) then [Event.found dp] else []
      let fr := runFiles kw dp cancelAt fs (c + 1)
      if fr.2.2 then dev ++ fr.1
      else
        let total2 := total + 1
        let pev := if total2 % 500 = 0 then [Event.progress total2] else []
        dev ++ fr.1 ++ pev ++ runEntries kw cancelAt rest fr.2.1 total2

/-- The walk of all roots in order.  The Python double loop
`for root in self.roots: for ... in os.walk(root)` processes exactly this
concatenation, carrying `total` and the flag-call counter across roots. -/
def walkAll (roots : List (Str × Dir)) : List (Str × List Str) :=
  roots.flatMap fun r => walk r.1 r.2

/-- `SearchWorker.run` for a worker constructed with the given roots and
keyword (the constructor lowers the keyword once, line 61). -/
def runWorker (roots : List (Str × Dir)) (keyword : Str) (cancelAt : Option Nat) : List Event :=
  runEntries (lowerStr keyword) cancelAt (walkAll roots) 0 0

/-- The paths carried by the `found` signals of a trace, in emission order. -/
def foundOf (es : List Event) : List Str :=
  es.filterMap fun e => match e with | .found p => some p | _ => none

/-- The values carried by the `progress` signals of a trace, in emission order. -/
def progressOf (es : List Event) : List Nat :=
  es.filterMap fun e => match e with | .progress n => some n | _ => none

/-- The matches of one walk entry `(dirpath, filenames)`: the directory path
when its base name contains the keyword, then the joined path of every
file name that contains the keyword (keyword and names lowered). -/
def entryMatches (kw : Str) (e : Str × List Str) : List Str :=
  (if isSubstr kw (lowerStr (basename e.1)) then [e.1] else []) ++
    (e.2.filter fun f => isSubstr kw (lowerStr f)).map (pathJoin e.1)

/-- All matches of a walk, in emission order. -/
def matchesOfWalk (kw : Str) (es : List (Str × List Str)) : List Str :=
  es.flatMap (entryMatches kw)

/-- All paths named by one walk entry: the directory path and every file path. -/
def pathsOfEntry (e : Str × List Str) : List Str :=
  e.1 :: e.2.map (pathJoin e.1)

/-- Every path named while walking `d` rooted at `p`. -/
def allPaths (p : Str) (d : Dir) : List Str :=
  (walk p d).flatMap pathsOfEntry

/-- A legal entry name on a POSIX filesystem: nonempty and without a slash. -/
def validName (n : Str) : Bool :=
  !n.isEmpty && n.all fun c => c ≠ '/'

mutual
/-- Well-formedness of a directory tree, as guaranteed by a real filesystem:
every name is a legal entry name, sibling file names are distinct, sibling
directory names are distinct, and no subdirectory shares its name with a
file of the same directory. -/
def wf : Dir → Bool
  | .node n fs subs =>
    validName n && fs.all validName && decide fs.Nodup &&
      decide (subs.map Dir.name).Nodup &&
      (subs.all fun c => decide (c.name ∉ fs)) && wfL subs

def wfL : List Dir → Bool
  | [] => true
  | d :: ds => wf d && wfL ds
end

/-! The main window (`MainWindow`, lines 87-274), as a state machine over the
UI actions the claims mention.  `activeWorkers` counts the `SearchWorker`
threads that have been `start()`ed and have not yet delivered `finished`;
`stopFlag` is the single shared `threading.Event` (`self._stop_event`). -/

/-- The status-label texts the modelled transitions write. -/
inductive StatusMsg where
  | ready
  | enterKeyword
  | searching
  | stopping
  | done (n : Nat)
  | visited (n : Nat)
  deriving DecidableEq

structure UIState where
  searchEnabled : Bool
  stopEnabled : Bool
  loaderVisible : Bool
  stopFlag : Bool
  activeWorkers : Nat
  results : List Str
  status : StatusMsg
  deriving DecidableEq

/-- The window right after `_build_ui`. -/
def initState : UIState :=
  { searchEnabled := true, stopEnabled := false, loaderVisible := false,
    stopFlag := false, activeWorkers := 0, results := [], status := .ready }

/-- `MainWindow.start_search` (lines 174-203): reject a blank keyword with
only a status message; otherwise clear the result list, clear the shared
stop event, construct and start a new worker, and flip the UI affordances. -/
def startSearch (kw : Str) (s : UIState) : UIState :=
  if pyStrip kw = [] then { s with status := .enterKeyword }
  else
    { s with results := [], stopFlag := false,
             activeWorkers := s.activeWorkers + 1,
             loaderVisible := true, searchEnabled := false, stopEnabled := true,
             status := .searching }

/-- `MainWindow.stop_search` (lines 205-208): when a worker is running, set
the shared stop event and update the status text. -/
def stopSearch (s : UIState) : UIState :=
  if s.activeWorkers > 0 then { s with stopFlag := true, status := .stopping } else s

/-- `MainWindow.on_finished` (lines 217-221). -/
def onFinished (s : UIState) : UIState :=
  { s with loaderVisible := false, searchEnabled := true, stopEnabled := false,
           status := .done s.results.length, activeWorkers := s.activeWorkers - 1 }

/-- User actions and worker signals relevant to the claims.  A click on the
search button only fires when the button is enabled; the Enter key in the
keyword field fires `returnPressed` unconditionally — `search_input` is
never disabled (lines 103-110). -/
inductive UIAction where
  | clickSearch (kw : Str)
  | pressEnter (kw : Str)
  | clickStop
  | workerFound (p : Str)
  | workerFinished

def uiStep (s : UIState) (a : UIAction) : UIState :=
  match a with
  | .clickSearch kw => if s.searchEnabled then startSearch kw s else s
  | .pressEnter kw => startSearch kw s
  | .clickStop => if s.stopEnabled then stopSearch s else s
  | .workerFound p => { s with results := s.results ++ [p] }
  | .workerFinished => onFinished s

/-- The UI state after a sequence of actions from the initial window. -/
def uiRun (acts : List UIAction) : UIState :=
  acts.foldl uiStep initState

/-! The terminal launcher (`MainWindow.open_terminal_at`, lines 256-274).
The `x-terminal-emulator` / `gnome-terminal` branch spawns
`[cmd, '--', 'bash', '-c', f'cd "{folder}"; exec bash']`, so the working
directory of the spawned shell is whatever `bash -c` makes of that string.
Below, a model of POSIX shell parsing for the fragment these strings live
in (words, double quotes, `;`), sufficient to compute the `cd` target. -/

def dquote : Char := Char.ofNat 34

/-- The f-string of line 270: `cd "{folder}"; exec bash`. -/
def bashCmdOf (folder : Str) : Str :=
  ("cd ".data) ++ [dquote] ++ folder ++ [dquote] ++ ("; exec bash".data)

/-- Shell tokens: a word, or the `;` separator. -/
inductive ShTok where
  | word (w : Str)
  | semi
  deriving DecidableEq

def flushTok : Option Str → List ShTok
  | none => []
  | some w => [ShTok.word w]

/-- Lexer for the modelled shell fragment: space separates words, a double
quote toggles quoting (characters inside quotes are literal), `;` separates
commands; an unterminated quote is a shell syntax error (`none`), in which
case the spawned shell executes nothing.  `inQ` is the in-quotes state and
`cur` the word being accumulated, if any. -/
def shLexGo : Str → Bool → Option Str → Option (List ShTok)
  | [], true, _ => none
  | [], false, cur => some (flushTok cur)
  | c :: r, true, cur =>
    if c = dquote then shLexGo r false (some (cur.getD []))
    else shLexGo r true (some (cur.getD [] ++ [c]))
  | c :: r, false, cur =>
    if c = dquote then shLexGo r true (some (cur.getD []))
    else if c = ' ' then (shLexGo r false none).map fun ts => flushTok cur ++ ts
    else if c = ';' then (shLexGo r false none).map fun ts => flushTok cur ++ ShTok.semi :: ts
    else shLexGo r false (some (cur.getD [] ++ [c]))

def shLex (s : Str) : Option (List ShTok) := shLexGo s false none

/-- The working directory established by `bash -c s` when `s` is of the shape
`cd <dir>; ...`: the argument of the leading `cd`, or `none` when the command
fails to parse or is not such a `cd`. -/
def cdTarget (s : Str) : Option Str :=
  match shLex s with
  | none => none
  | some toks =>
    match toks.takeWhile (fun t => t ≠ ShTok.semi) with
    | [ShTok.word c, ShTok.word d] => if c = ("cd".data) then some d else none
    | _ => none

/-- The example tree of the spec's §8 test: `/tmp/testroot` containing
`Foo/bar.txt` and `baz/FooBar.log`. -/
def exampleTree : Dir :=
  Dir.node ("testroot".data) []
    [Dir.node ("Foo".data) [("bar.txt".data)] [],
     Dir.node ("baz".data) [("FooBar.log".data)] []]

def exampleRoot : Str := "/tmp/testroot".data

/-! Lemmas about the sorting used by `find_mounts_external`. -/

theorem mem_insertSorted (m x : Str) (l : List Str) :
    m ∈ insertSorted x l ↔ m = x ∨ m ∈ l := by
  induction l with
  | nil => simp [insertSorted]
  | cons y ys ih =>
    simp only [insertSorted]
    split
    · simp [List.mem_cons]
    · simp only [List.mem_cons, ih]
      tauto

theorem mem_sortStr (m : Str) (l : List Str) : m ∈ sortStr l ↔ m ∈ l := by
  induction l with
  | nil => simp [sortStr]
  | cons y ys ih =>
    simp only [sortStr, List.foldr_cons] at ih ⊢
    rw [mem_insertSorted, ih, List.mem_cons]

theorem strLe_total (a b : Str) : strLe a b = true ∨ strLe b a = true := by
  induction a generalizing b with
  | nil => left; rfl
  | cons x xs ih =>
    cases b with
    | nil => right; rfl
    | cons y ys =>
      by_cases hxy : x = y
      · subst hxy
        simpa [strLe] using ih ys
      · simp only [strLe, if_neg hxy, if_neg (Ne.symm hxy)]
        rcases lt_or_gt_of_ne hxy with h | h
        · left; exact decide_eq_true h
        · right; exact decide_eq_true h

theorem strLe_trans (a b c : Str) (hab : strLe a b = true) (hbc : strLe b c = true) :
    strLe a c = true := by
  induction a generalizing b c with
  | nil => rfl
  | cons x xs ih =>
    cases b with
    | nil => exact absurd hab (by simp [strLe])
    | cons y ys =>
      cases c with
      | nil => exact absurd hbc (by simp [strLe])
      | cons z zs =>
        simp only [strLe] at hab hbc ⊢
        by_cases hxy : x = y
        · subst hxy
          by_cases hyz : x = z
          · subst hyz
            rw [if_pos rfl] at hab hbc ⊢
            exact ih ys zs hab hbc
          · rw [if_pos rfl] at hab
            rw [if_neg hyz] at hbc ⊢
            exact hbc
        · rw [if_neg hxy] at hab
          replace hab : x < y := of_decide_eq_true hab
          by_cases hyz : y = z
          · subst hyz
            rw [if_neg hxy]
            exact decide_eq_true hab
          · rw [if_neg hyz] at hbc
            replace hbc : y < z := of_decide_eq_true hbc
            have hxz : x < z := lt_trans hab hbc
            rw [if_neg (ne_of_lt hxz)]
            exact decide_eq_true hxz

theorem pairwise_insertSorted (x : Str) (l : List Str)
    (h : l.Pairwise fun a b => strLe a b = true) :
    (insertSorted x l).Pairwise fun a b => strLe a b = true := by
  induction l with
  | nil => simp [insertSorted]
  | cons y ys ih =>
    rcases List.pairwise_cons.1 h with ⟨hy, hys⟩
    simp only [insertSorted]
    split
    · rename_i hxy
      refine List.pairwise_cons.2 ⟨?_, h⟩
      intro b hb
      rcases List.mem_cons.1 hb with rfl | hb
      · exact hxy
      · exact strLe_trans x y b hxy (hy b hb)
    · rename_i hxy
      refine List.pairwise_cons.2 ⟨?_, ih hys⟩
      intro b hb
      rcases (mem_insertSorted b x ys).1 hb with hbx | hb
      · rw [hbx]
        rcases strLe_total x y with h' | h'
        · exact absurd h' hxy
        · exact h'
      · exact hy b hb

theorem nodup_insertSorted (x : Str) (l : List Str) (hx : x ∉ l) (h : l.Nodup) :
    (insertSorted x l).Nodup := by
  induction l with
  | nil => simp [insertSorted]
  | cons y ys ih =>
    rcases List.nodup_cons.1 h with ⟨hy, hys⟩
    simp only [List.mem_cons, not_or] at hx
    simp only [insertSorted]
    split
    · exact List.nodup_cons.2 ⟨by simp [List.mem_cons, hx.1, hx.2], h⟩
    · refine List.nodup_cons.2 ⟨?_, ih hx.2 hys⟩
      intro hmem
      rcases (mem_insertSorted y x ys).1 hmem with rfl | hmem
      · exact hx.1 rfl
      · exact hy hmem

theorem pairwise_sortStr (l : List Str) :
    (sortStr l).Pairwise fun a b => strLe a b = true := by
  induction l with
  | nil => simp [sortStr]
  | cons y ys ih =>
    simpa only [sortStr, List.foldr_cons] using
      pairwise_insertSorted y _ (by simpa only [sortStr] using ih)

theorem nodup_sortStr (l : List Str) (h : l.Nodup) : (sortStr l).Nodup := by
  induction l with
  | nil => simp [sortStr]
  | cons y ys ih =>
    rcases List.nodup_cons.1 h with ⟨hy, hys⟩
    simp only [sortStr, List.foldr_cons]
    refine nodup_insertSorted y _ ?_ (by simpa only [sortStr] using ih hys)
    intro hmem
    exact hy ((mem_sortStr y ys).1 (by simpa only [sortStr] using hmem))

theorem mountOfLine_eq_some (line m : Str) :
    mountOfLine line = some m ↔
      ∃ dev mnt rest, splitWS line = dev :: mnt :: rest ∧ extDev dev = true ∧ mnt = m := by
  unfold mountOfLine
  rcases h : splitWS line with _ | ⟨dev, _ | ⟨mnt, rest⟩⟩
  · simp
  · simp
  · by_cases hd : extDev dev = true <;> simp [hd]
    constructor
    · intro hm
      exact ⟨dev, ⟨rfl, hm⟩, hd⟩
    · rintro ⟨d, ⟨hdev, hm⟩, hd'⟩
      exact hm

theorem mountOfLine_none_short (line : Str) (h : (splitWS line).length < 2) :
    mountOfLine line = none := by
  unfold mountOfLine
  rcases hs : splitWS line with _ | ⟨dev, _ | ⟨mnt, rest⟩⟩
  · rfl
  · rfl
  · rw [hs] at h
    simp at h
    omega

theorem mem_find_mounts (table : List Str) (m : Str) :
    m ∈ find_mounts_ext (some table) ↔ ∃ line ∈ table, mountOfLine line = some m := by
  simp [find_mounts_ext, pySortedSet, mem_sortStr, List.mem_dedup, List.mem_filterMap]

theorem filterMap_mounts_skip_short (lines : List Str) :
    (lines.filter fun l => 2 ≤ (splitWS l).length).filterMap mountOfLine =
      lines.filterMap mountOfLine := by
  induction lines with
  | nil => rfl
  | cons l ls ih =>
    by_cases hl : 2 ≤ (splitWS l).length
    · simp only [List.filter_cons, if_pos (decide_eq_true hl), List.filterMap_cons]
      rw [ih]
    · rw [List.filter_cons, if_neg (by simpa using hl), List.filterMap_cons,
        mountOfLine_none_short l (by omega), ih]

/-- C7: mount enumeration applied to the table with lines
`/dev/sda1 /media/usb1`, `/dev/sdb2 /mnt/data`, `/dev/loop0 /snap/x` returns
exactly `[/media/usb1, /mnt/data]`, and in general a mount point is returned
iff some line's device field begins with one of the fixed prefixes `/dev/sd`,
`/dev/mmcblk`, `/dev/nvme` (SCSI/SATA, MMC, NVMe) and carries it as its
mount-point field. -/
theorem mounts_concrete_table :
    find_mounts_ext (some [("/dev/sda1 /media/usb1".data), ("/dev/sdb2 /mnt/data".data),
        ("/dev/loop0 /snap/x".data)]) = [("/media/usb1".data), ("/mnt/data".data)] ∧
    ∀ table m, m ∈ find_mounts_ext (some table) ↔
      ∃ line ∈ table, ∃ dev mnt rest,
        splitWS line = dev :: mnt :: rest ∧ extDev dev = true ∧ mnt = m := by
  constructor
  · decide
  · intro table m
    rw [mem_find_mounts]
    constructor
    · rintro ⟨line, hline, hm⟩
      exact ⟨line, hline, (mountOfLine_eq_some line m).1 hm⟩
    · rintro ⟨line, hline, hm⟩
      exact ⟨line, hline, (mountOfLine_eq_some line m).2 hm⟩

/-- C8: when reading the mount table fails at `open` (missing file,
permission denied), `find_mounts_external` returns the empty collection
instead of raising: the `except: pass` branch falls through to
`return sorted(set([]))`. -/
theorem mounts_read_failure : find_mounts_ext none = [] := rfl

/-- C10: for every mount-table content, the returned mount points are
deduplicated and sorted in strictly ascending lexicographic order, and any
line with fewer than two whitespace-separated fields is silently skipped
(filtering such lines out does not change the result). -/
theorem mounts_sorted_dedup_skip :
    ∀ lines : List Str,
      (find_mounts_ext (some lines)).Pairwise (fun a b => strLe a b = true ∧ a ≠ b) ∧
      find_mounts_ext (some lines) =
        find_mounts_ext (some (lines.filter fun l => 2 ≤ (splitWS l).length)) := by
  intro lines
  constructor
  · exact (pairwise_sortStr _).and (nodup_sortStr _ (List.nodup_dedup _))
  · simp only [find_mounts_ext, pySortedSet]
    rw [filterMap_mounts_skip_short]

/-- C4 fails on the code: the search button is disabled during a run, but
`search_input.returnPressed` is also connected to `start_search` and the
line edit is never disabled, so pressing Enter while a search is running
starts a second concurrent worker without cancelling the first — it even
clears the shared stop event.  After `Enter("a")` then `Enter("b")` two
workers are active and the stop flag is unset. -/
theorem second_search_via_enter :
    (uiRun [UIAction.pressEnter ("a".data)]).activeWorkers = 1 ∧
    (uiRun [UIAction.pressEnter ("a".data)]).searchEnabled = false ∧
    (uiRun [UIAction.pressEnter ("a".data), UIAction.pressEnter ("b".data)]).activeWorkers = 2 ∧
    (uiRun [UIAction.pressEnter ("a".data), UIAction.pressEnter ("b".data)]).stopFlag = false := by
  refine ⟨?_, ?_, ?_, ?_⟩ <;> decide

/-- C5: submitting a keyword that strips to nothing (empty or
whitespace-only) starts no worker, leaves the result list unchanged, and
only writes the inline status message — for the Enter path the state is
exactly the old state with the status replaced, and the button path also
changes neither worker count nor results. -/
theorem blank_keyword_rejected (s : UIState) (kw : Str) (h : pyStrip kw = []) :
    uiStep s (UIAction.pressEnter kw) = { s with status := StatusMsg.enterKeyword } ∧
    (uiStep s (UIAction.clickSearch kw)).activeWorkers = s.activeWorkers ∧
    (uiStep s (UIAction.clickSearch kw)).results = s.results := by
  refine ⟨by simp [uiStep, startSearch, h], ?_, ?_⟩ <;>
    · simp only [uiStep]
      split
      · simp [startSearch, h]
      · rfl

theorem blank_keyword_rejected_witness :
    pyStrip ("  ".data) = [] ∧
      uiStep initState (UIAction.pressEnter ("  ".data)) =
        { initState with status := StatusMsg.enterKeyword } :=
  ⟨by decide, (blank_keyword_rejected initState ("  ".data) (by decide)).1⟩

/-- C6 fails on the code: line 270 builds the shell command by naive
interpolation `cd "{folder}"; exec bash`.  A folder path containing a space
survives (the spec's `/tmp/my folder` test passes), but a path containing a
double quote breaks the quoting: for `/tmp/a"b` the command string is
`cd "/tmp/a"b"; exec bash`, whose trailing quote is unterminated, so the
spawned `bash -c` fails with a syntax error and no shell runs in the
requested directory — the embedding does not correctly escape the path. -/
theorem terminal_quoting_broken :
    cdTarget (bashCmdOf ("/tmp/my folder".data)) = some ("/tmp/my folder".data) ∧
    cdTarget (bashCmdOf (("/tmp/a".data) ++ [dquote] ++ ("b".data))) = none := by
  exact ⟨by decide, by decide⟩

/-! Lemmas about the worker trace. -/

theorem foundOf_append (a b : List Event) : foundOf (a ++ b) = foundOf a ++ foundOf b := by
  simp [foundOf]

theorem progressOf_append (a b : List Event) :
    progressOf (a ++ b) = progressOf a ++ progressOf b := by
  simp [progressOf]

theorem foundOf_nil : foundOf [] = [] := rfl

theorem foundOf_found (p : Str) : foundOf [Event.found p] = [p] := rfl

theorem foundOf_progress_ev (n : Nat) : foundOf [Event.progress n] = [] := rfl

theorem foundOf_finished : foundOf [Event.finished] = [] := rfl

theorem progressOf_nil : progressOf [] = [] := rfl

theorem progressOf_found (p : Str) : progressOf [Event.found p] = [] := rfl

theorem progressOf_progress_ev (n : Nat) : progressOf [Event.progress n] = [n] := rfl

theorem progressOf_finished : progressOf [Event.finished] = [] := rfl

theorem foundOf_cons_found (p : Str) (es : List Event) :
    foundOf (Event.found p :: es) = p :: foundOf es := rfl

theorem foundOf_cons_progress (n : Nat) (es : List Event) :
    foundOf (Event.progress n :: es) = foundOf es := rfl

theorem foundOf_cons_finished (es : List Event) :
    foundOf (Event.finished :: es) = foundOf es := rfl

theorem progressOf_cons_found (p : Str) (es : List Event) :
    progressOf (Event.found p :: es) = progressOf es := rfl

theorem progressOf_cons_progress (n : Nat) (es : List Event) :
    progressOf (Event.progress n :: es) = n :: progressOf es := rfl

theorem progressOf_cons_finished (es : List Event) :
    progressOf (Event.finished :: es) = progressOf es := rfl

theorem foundOf_map_found (l : List Str) (g : Str → Str) :
    foundOf (l.map fun f => Event.found (g f)) = l.map g := by
  induction l with
  | nil => rfl
  | cons f fs ih => simpa [foundOf, List.filterMap_cons] using ih

theorem runFiles_none (kw dp : Str) (fs : List Str) (c : Nat) :
    runFiles kw dp none fs c =
      (((fs.filter fun f => isSubstr kw (lowerStr f)).map fun f => Event.found (pathJoin dp f)),
        c + fs.length, false) := by
  induction fs generalizing c with
  | nil => simp [runFiles]
  | cons f fs ih =>
    simp only [runFiles, flagAt, ih (c + 1), List.filter_cons]
    by_cases hf : isSubstr kw (lowerStr f) = true
    · simp [hf, Prod.ext_iff]
      omega
    · simp [hf, Prod.ext_iff]
      omega

theorem runEntries_found_none (kw : Str) (es : List (Str × List Str)) (c t : Nat) :
    foundOf (runEntries kw none es c t) = matchesOfWalk kw es := by
  induction es generalizing c t with
  | nil => simp [runEntries, matchesOfWalk, foundOf_finished]
  | cons e rest ih =>
    obtain ⟨dp, fs⟩ := e
    by_cases hd : isSubstr kw (lowerStr (basename dp)) = true <;>
      by_cases hp : (t + 1) % 500 = 0 <;>
        simp [runEntries, flagAt, runFiles_none, hd, hp, foundOf_append, foundOf_map_found, ih,
          matchesOfWalk, entryMatches, foundOf_nil, foundOf_found, foundOf_progress_ev,
          foundOf_cons_found, foundOf_cons_progress, foundOf_cons_finished]

theorem runFiles_abort_shape (kw dp : Str) (ca : Option Nat) (fs : List Str) (c : Nat)
    (h : (runFiles kw dp ca fs c).2.2 = true) :
    ∃ pre, (runFiles kw dp ca fs c).1 = pre ++ [Event.finished] ∧ Event.finished ∉ pre := by
  induction fs generalizing c with
  | nil => simp [runFiles] at h
  | cons f fs ih =>
    by_cases hc : flagAt ca c = true
    · refine ⟨[], ?_, by simp⟩
      simp [runFiles, hc]
    · simp only [runFiles, if_neg hc] at h ⊢
      obtain ⟨pre, hpre, hmem⟩ := ih (c + 1) h
      by_cases hf : isSubstr kw (lowerStr f) = true
      · exact ⟨Event.found (pathJoin dp f) :: pre, by simp [hf, hpre], by simp [hmem]⟩
      · exact ⟨pre, by simp [hf, hpre], hmem⟩

theorem runFiles_noabort_nofin (kw dp : Str) (ca : Option Nat) (fs : List Str) (c : Nat)
    (h : (runFiles kw dp ca fs c).2.2 = false) :
    Event.finished ∉ (runFiles kw dp ca fs c).1 := by
  induction fs generalizing c with
  | nil => simp [runFiles]
  | cons f fs ih =>
    by_cases hc : flagAt ca c = true
    · simp [runFiles, hc] at h
    · simp only [runFiles, if_neg hc] at h ⊢
      intro hmem
      rcases List.mem_append.1 hmem with hl | hr
      · by_cases hf : isSubstr kw (lowerStr f) = true <;> simp [hf] at hl
      · exact ih (c + 1) h hr

theorem runEntries_shape (kw : Str) (ca : Option Nat) (es : List (Str × List Str)) (c t : Nat) :
    ∃ pre, runEntries kw ca es c t = pre ++ [Event.finished] ∧ Event.finished ∉ pre := by
  induction es generalizing c t with
  | nil => exact ⟨[], rfl, by simp⟩
  | cons e rest ih =>
    obtain ⟨dp, fs⟩ := e
    by_cases hc : flagAt ca c = true
    · exact ⟨[], by simp [runEntries, hc], by simp⟩
    · simp only [runEntries, if_neg hc]
      by_cases hab : (runFiles kw dp ca fs (c + 1)).2.2 = true
      · obtain ⟨pre, hpre, hmem⟩ := runFiles_abort_shape kw dp ca fs (c + 1) hab
        by_cases hd : isSubstr kw (lowerStr (basename dp)) = true
        · exact ⟨Event.found dp :: pre, by simp [hab, hd, hpre], by simp [hmem]⟩
        · exact ⟨pre, by simp [hab, hd, hpre], hmem⟩
      · obtain ⟨pre, hpre, hmem⟩ := ih (runFiles kw dp ca fs (c + 1)).2.1 (t + 1)
        have hab' : (runFiles kw dp ca fs (c + 1)).2.2 = false := by
          cases h' : (runFiles kw dp ca fs (c + 1)).2.2
          · rfl
          · exact absurd h' hab
        have hnof := runFiles_noabort_nofin kw dp ca fs (c + 1) hab'
        refine ⟨(if isSubstr kw (lowerStr (basename dp)) then [Event.found dp] else []) ++
          (runFiles kw dp ca fs (c + 1)).1 ++
          (if (t + 1) % 500 = 0 then [Event.progress (t + 1)] else []) ++ pre, ?_, ?_⟩
        · simp only [if_neg hab, hpre]
          simp [List.append_assoc]
        · intro hmem2
          rcases List.mem_append.1 hmem2 with h3 | h4
          · rcases List.mem_append.1 h3 with h5 | h6
            · rcases List.mem_append.1 h5 with h7 | h8
              · by_cases hd : isSubstr kw (lowerStr (basename dp)) = true <;> simp [hd] at h7
              · exact hnof h8
            · by_cases hp : (t + 1) % 500 = 0 <;> simp [hp] at h6
          · exact hmem h4

theorem runFiles_noabort_eq (kw dp : Str) (n : Nat) (fs : List Str) (c : Nat)
    (h : (runFiles kw dp (some n) fs c).2.2 = false) :
    runFiles kw dp (some n) fs c = runFiles kw dp none fs c := by
  induction fs generalizing c with
  | nil => rfl
  | cons f fs ih =>
    by_cases hc : flagAt (some n) c = true
    · simp [runFiles, hc] at h
    · simp only [runFiles, if_neg hc] at h ⊢
      rw [ih (c + 1) h]
      simp [flagAt]

theorem runFiles_found_prefix (kw dp : Str) (n : Nat) (fs : List Str) (c : Nat) :
    ∃ suf, foundOf (runFiles kw dp none fs c).1 =
      foundOf (runFiles kw dp (some n) fs c).1 ++ suf := by
  induction fs generalizing c with
  | nil => exact ⟨[], by simp [runFiles, foundOf_nil]⟩
  | cons f fs ih =>
    by_cases hc : flagAt (some n) c = true
    · refine ⟨foundOf (runFiles kw dp none (f :: fs) c).1, ?_⟩
      simp [runFiles, hc, foundOf_finished]
    · obtain ⟨suf, hsuf⟩ := ih (c + 1)
      refine ⟨suf, ?_⟩
      have hcn : flagAt none c = false := rfl
      simp only [runFiles, if_neg hc, hcn, Bool.false_eq_true, if_false]
      rw [foundOf_append, foundOf_append, hsuf, List.append_assoc]

theorem runFiles_found_le (kw dp : Str) (ca : Option Nat) (fs : List Str) (c : Nat) :
    (foundOf (runFiles kw dp ca fs c).1).length ≤ fs.length := by
  induction fs generalizing c with
  | nil => simp [runFiles, foundOf_nil]
  | cons f fs ih =>
    by_cases hc : flagAt ca c = true
    · simp [runFiles, hc, foundOf_finished]
    · simp only [runFiles, if_neg hc]
      rw [foundOf_append]
      have := ih (c + 1)
      by_cases hf : isSubstr kw (lowerStr f) = true <;>
        simp [hf, foundOf_found, foundOf_nil, List.length_append] <;> omega

theorem runFiles_counter (kw dp : Str) (ca : Option Nat) (fs : List Str) (c : Nat)
    (h : (runFiles kw dp ca fs c).2.2 = false) :
    (runFiles kw dp ca fs c).2.1 = c + fs.length := by
  induction fs generalizing c with
  | nil => simp [runFiles]
  | cons f fs ih =>
    by_cases hc : flagAt ca c = true
    · simp [runFiles, hc] at h
    · simp only [runFiles, if_neg hc] at h ⊢
      rw [ih (c + 1) h]
      simp
      omega

theorem runFiles_counter_le (kw dp : Str) (n : Nat) (fs : List Str) (c : Nat)
    (hcn : c ≤ n) (h : (runFiles kw dp (some n) fs c).2.2 = false) :
    c + fs.length ≤ n := by
  induction fs generalizing c with
  | nil => simpa using hcn
  | cons f fs ih =>
    by_cases hc : flagAt (some n) c = true
    · simp [runFiles, hc] at h
    · have hlt : c < n := by
        by_contra hge
        exact hc (by simp [flagAt]; omega)
      simp only [runFiles, if_neg hc] at h
      have := ih (c + 1) (by omega) h
      simp only [List.length_cons]
      omega

theorem runFiles_found_bound (kw dp : Str) (n : Nat) (fs : List Str) (c : Nat) :
    (foundOf (runFiles kw dp (some n) fs c).1).length ≤ n - c := by
  induction fs generalizing c with
  | nil => simp [runFiles, foundOf_nil]
  | cons f fs ih =>
    by_cases hc : flagAt (some n) c = true
    · simp [runFiles, hc, foundOf_finished]
    · have hlt : c < n := by
        by_contra hge
        exact hc (by simp [flagAt]; omega)
      simp only [runFiles, if_neg hc]
      rw [foundOf_append]
      have := ih (c + 1)
      by_cases hf : isSubstr kw (lowerStr f) = true <;>
        simp [hf, foundOf_found, foundOf_nil, List.length_append] <;> omega

theorem runEntries_found_prefix (kw : Str) (n : Nat) (es : List (Str × List Str)) (c t : Nat) :
    ∃ suf, foundOf (runEntries kw none es c t) =
      foundOf (runEntries kw (some n) es c t) ++ suf := by
  induction es generalizing c t with
  | nil => exact ⟨[], by simp [runEntries, foundOf_finished]⟩
  | cons e rest ih =>
    obtain ⟨dp, fs⟩ := e
    have hcn : flagAt none c = false := rfl
    by_cases hc : flagAt (some n) c = true
    · refine ⟨foundOf (runEntries kw none ((dp, fs) :: rest) c t), ?_⟩
      simp [runEntries, hc, foundOf_finished]
    · by_cases hab : (runFiles kw dp (some n) fs (c + 1)).2.2 = true
      · obtain ⟨suf_f, hsuf⟩ := runFiles_found_prefix kw dp n fs (c + 1)
        have hc2 : (runFiles kw dp none fs (c + 1)).2.1 = c + 1 + fs.length := by
          rw [runFiles_none]
        have hab2 : (runFiles kw dp none fs (c + 1)).2.2 = false := by
          rw [runFiles_none]
        refine ⟨suf_f ++ foundOf (runEntries kw none rest (c + 1 + fs.length) (t + 1)), ?_⟩
        simp only [runEntries, hcn, Bool.false_eq_true, if_false, if_neg hc, hab2, hab, if_true,
          hc2]
        rw [foundOf_append, foundOf_append, foundOf_append, foundOf_append, hsuf]
        by_cases hp : (t + 1) % 500 = 0 <;>
          simp [hp, foundOf_progress_ev, foundOf_nil, List.append_assoc]
      · have hab' : (runFiles kw dp (some n) fs (c + 1)).2.2 = false := by
          cases h' : (runFiles kw dp (some n) fs (c + 1)).2.2
          · rfl
          · exact absurd h' hab
        have heq := runFiles_noabort_eq kw dp n fs (c + 1) hab'
        obtain ⟨suf, hsuf⟩ := ih (runFiles kw dp (some n) fs (c + 1)).2.1 (t + 1)
        refine ⟨suf, ?_⟩
        simp only [runEntries, hcn, Bool.false_eq_true, if_false, if_neg hc]
        rw [← heq]
        simp only [hab', Bool.false_eq_true, if_false]
        rw [foundOf_append, foundOf_append, foundOf_append, foundOf_append, foundOf_append,
          foundOf_append, hsuf]
        simp [List.append_assoc]

theorem runEntries_found_bound (kw : Str) (n : Nat) (es : List (Str × List Str)) (c t : Nat) :
    (foundOf (runEntries kw (some n) es c t)).length ≤ n - c := by
  induction es generalizing c t with
  | nil => simp [runEntries, foundOf_finished]
  | cons e rest ih =>
    obtain ⟨dp, fs⟩ := e
    by_cases hc : flagAt (some n) c = true
    · simp [runEntries, hc, foundOf_finished]
    · have hlt : c < n := by
        by_contra hge
        exact hc (by simp [flagAt]; omega)
      simp only [runEntries, if_neg hc]
      by_cases hab : (runFiles kw dp (some n) fs (c + 1)).2.2 = true
      · simp only [hab, if_true]
        rw [foundOf_append]
        have h1 := runFiles_found_bound kw dp n fs (c + 1)
        by_cases hd : isSubstr kw (lowerStr (basename dp)) = true <;>
          simp [hd, foundOf_found, foundOf_nil, List.length_append] <;> omega
      · have hab' : (runFiles kw dp (some n) fs (c + 1)).2.2 = false := by
          cases h' : (runFiles kw dp (some n) fs (c + 1)).2.2
          · rfl
          · exact absurd h' hab
        have hcnt := runFiles_counter kw dp (some n) fs (c + 1) hab'
        have hle := runFiles_counter_le kw dp n fs (c + 1) (by omega) hab'
        have h1 := runFiles_found_le kw dp (some n) fs (c + 1)
        have h2 := ih (runFiles kw dp (some n) fs (c + 1)).2.1 (t + 1)
        rw [hcnt] at h2
        simp only [if_neg hab]
        rw [foundOf_append, foundOf_append, foundOf_append, hcnt]
        by_cases hd : isSubstr kw (lowerStr (basename dp)) = true <;>
          by_cases hp : (t + 1) % 500 = 0 <;>
            simp [hd, hp, foundOf_found, foundOf_nil, foundOf_progress_ev,
              List.length_append] <;> omega

theorem runFiles_progress_nil (kw dp : Str) (ca : Option Nat) (fs : List Str) (c : Nat) :
    progressOf (runFiles kw dp ca fs c).1 = [] := by
  induction fs generalizing c with
  | nil => simp [runFiles, progressOf_nil]
  | cons f fs ih =>
    by_cases hc : flagAt ca c = true
    · simp [runFiles, hc, progressOf_finished]
    · simp only [runFiles, if_neg hc]
      rw [progressOf_append, ih (c + 1)]
      by_cases hf : isSubstr kw (lowerStr f) = true <;>
        simp [hf, progressOf_found, progressOf_nil]

theorem runFiles_none_noabort (kw dp : Str) (fs : List Str) (c : Nat) :
    (runFiles kw dp none fs c).2.2 = false := by
  rw [runFiles_none]

theorem runEntries_progress (kw : Str) (ca : Option Nat) (es : List (Str × List Str)) (c t : Nat) :
    ∃ d, d ≤ es.length ∧
      progressOf (runEntries kw ca es c t) =
        (List.range' (t + 1) d).filter (fun m => m % 500 = 0) ∧
      (ca = none → d = es.length) := by
  induction es generalizing c t with
  | nil => exact ⟨0, by simp [runEntries, progressOf_finished]⟩
  | cons e rest ih =>
    obtain ⟨dp, fs⟩ := e
    by_cases hc : flagAt ca c = true
    · refine ⟨0, by simp, by simp [runEntries, hc, progressOf_finished], ?_⟩
      rintro rfl
      simp [flagAt] at hc
    · by_cases hab : (runFiles kw dp ca fs (c + 1)).2.2 = true
      · refine ⟨0, by simp, ?_, ?_⟩
        · simp only [runEntries, if_neg hc, hab, if_true]
          rw [progressOf_append, runFiles_progress_nil]
          by_cases hd : isSubstr kw (lowerStr (basename dp)) = true <;>
            simp [hd, progressOf_found, progressOf_nil]
        · rintro rfl
          rw [runFiles_none_noabort] at hab
          exact absurd hab (by simp)
      · obtain ⟨d, hdle, hprog, hnone⟩ := ih (runFiles kw dp ca fs (c + 1)).2.1 (t + 1)
        refine ⟨d + 1, by simpa using hdle, ?_, ?_⟩
        · simp only [runEntries, if_neg hc, if_neg hab]
          rw [progressOf_append, progressOf_append, progressOf_append, runFiles_progress_nil,
            hprog, List.range'_succ]
          by_cases hd2 : isSubstr kw (lowerStr (basename dp)) = true <;>
            by_cases hp : (t + 1) % 500 = 0 <;>
              simp [hd2, hp, progressOf_found, progressOf_nil, progressOf_progress_ev,
                List.filter_cons]
        · intro hca
          rw [hnone hca]
          simp

/-- C3: every run of the worker — by exhaustion (`cancelAt = none`) or by
observing the cancellation flag (`cancelAt = some n`) — emits exactly one
`finished` signal, and it is the last signal of the trace: the trace is
`pre ++ [finished]` with no `finished` in `pre`. -/
theorem completion_signal_once_and_last (roots : List (Str × Dir)) (kw : Str)
    (ca : Option Nat) :
    ∃ pre, runWorker roots kw ca = pre ++ [Event.finished] ∧ Event.finished ∉ pre := by
  simpa [runWorker] using runEntries_shape (lowerStr kw) ca (walkAll roots) 0 0

/-- C2: for a run whose flag is first observed set at `is_set()` call `n`:
(a) exactly one completion signal is still delivered, and it closes the
trace, so no match is emitted after the flag is observed; (b) the matches of
the cancelled run form a prefix of the uncancelled run's matches — already
emitted matches are never retracted; (c) since the flag is checked once per
directory and once per file, at most `n` matches are emitted in total. -/
theorem cancellation_stops_promptly (roots : List (Str × Dir)) (kw : Str) (n : Nat) :
    ((runWorker roots kw (some n)).count Event.finished = 1 ∧
      ∃ pre, runWorker roots kw (some n) = pre ++ [Event.finished] ∧ Event.finished ∉ pre) ∧
    (∃ suf, foundOf (runWorker roots kw none) =
      foundOf (runWorker roots kw (some n)) ++ suf) ∧
    (foundOf (runWorker roots kw (some n))).length ≤ n := by
  refine ⟨?_, ?_, ?_⟩
  · obtain ⟨pre, hpre, hmem⟩ := runEntries_shape (lowerStr kw) (some n) (walkAll roots) 0 0
    simp only [runWorker] at hpre ⊢
    constructor
    · rw [hpre, List.count_append]
      simp [List.count_eq_zero.2 hmem]
    · exact ⟨pre, hpre, hmem⟩
  · obtain ⟨suf, hsuf⟩ := runEntries_found_prefix (lowerStr kw) n (walkAll roots) 0 0
    exact ⟨suf, by simpa [runWorker] using hsuf⟩
  · simpa [runWorker] using runEntries_found_bound (lowerStr kw) n (walkAll roots) 0 0

/-- C9: in every run the visited-directory counter grows by one per fully
visited directory, cumulatively across roots; a progress event fires exactly
at the positive multiples of 500 the counter reaches, so the emitted values
are `filter (500 ∣ ·) [1..d]` for the number `d` of visited directories,
strictly increasing; an uncancelled run visits every directory of the walk. -/
theorem progress_every_500_directories (roots : List (Str × Dir)) (kw : Str)
    (ca : Option Nat) :
    (∃ d, d ≤ (walkAll roots).length ∧
      progressOf (runWorker roots kw ca) =
        (List.range' 1 d).filter (fun m => m % 500 = 0) ∧
      List.Chain' (· < ·) (progressOf (runWorker roots kw ca))) ∧
    progressOf (runWorker roots kw none) =
      (List.range' 1 (walkAll roots).length).filter (fun m => m % 500 = 0) := by
  constructor
  · obtain ⟨d, hdle, hprog, _⟩ := runEntries_progress (lowerStr kw) ca (walkAll roots) 0 0
    have hprog' : progressOf (runWorker roots kw ca) =
        (List.range' 1 d).filter (fun m => m % 500 = 0) := by
      simpa [runWorker] using hprog
    have hpw : (progressOf (runWorker roots kw ca)).Pairwise (· < ·) := by
      rw [hprog']
      exact List.Pairwise.sublist (List.filter_sublist _) (List.pairwise_lt_range' 1 d)
    exact ⟨d, hdle, hprog', hpw.chain'⟩
  · obtain ⟨d, hdle, hprog, hnone⟩ := runEntries_progress (lowerStr kw) none (walkAll roots) 0 0
    rw [hnone rfl] at hprog
    simpa [runWorker] using hprog

/-! Path uniqueness: on a well-formed tree, distinct walk positions carry
distinct paths, so every match is emitted exactly once. -/

theorem validName_ne_nil (x : Str) (h : validName x = true) : x ≠ [] := by
  simp only [validName, Bool.and_eq_true, Bool.not_eq_eq_eq_not, Bool.not_true,
    List.isEmpty_eq_false] at h
  exact h.1

theorem validName_no_slash (x : Str) (h : validName x = true) : '/' ∉ x := by
  simp only [validName, Bool.and_eq_true, List.all_eq_true, decide_eq_true_eq] at h
  intro hm
  exact h.2 '/' hm rfl

theorem wf_parts (n : Str) (fs : List Str) (subs : List Dir)
    (h : wf (Dir.node n fs subs) = true) :
    validName n = true ∧ (∀ f ∈ fs, validName f = true) ∧ fs.Nodup ∧
      (subs.map Dir.name).Nodup ∧ (∀ c ∈ subs, c.name ∉ fs) ∧ wfL subs = true := by
  simp only [wf, Bool.and_eq_true, List.all_eq_true, decide_eq_true_eq] at h
  tauto

theorem wfL_cons (d : Dir) (ds : List Dir) (h : wfL (d :: ds) = true) :
    wf d = true ∧ wfL ds = true := by
  simpa [wfL, Bool.and_eq_true] using h

theorem wfL_mem (ds : List Dir) (c : Dir) (hc : c ∈ ds) (h : wfL ds = true) : wf c = true := by
  induction ds with
  | nil => simp at hc
  | cons d ds ih =>
    obtain ⟨h1, h2⟩ := wfL_cons d ds h
    rcases List.mem_cons.1 hc with rfl | hc
    · exact h1
    · exact ih hc h2

theorem wf_name_valid (d : Dir) (h : wf d = true) : validName d.name = true := by
  obtain ⟨n, fs, subs⟩ := d
  exact (wf_parts n fs subs h).1

theorem sepOf_slash (p : Str) (hp1 : p ≠ []) (hp2 : p.getLast? ≠ some '/') :
    sepOf p = ['/'] := by
  simp [sepOf, hp1, hp2]

theorem pathJoin_slash (p x : Str) (hp1 : p ≠ []) (hp2 : p.getLast? ≠ some '/') :
    pathJoin p x = p ++ '/' :: x := by
  rw [pathJoin, sepOf_slash p hp1 hp2]
  simp

theorem pathJoin_ne_nil (p x : Str) (hx : x ≠ []) : pathJoin p x ≠ [] := by
  simp [pathJoin, hx]

theorem pathJoin_getLast (p x : Str) (hx : x ≠ []) :
    (pathJoin p x).getLast? = x.getLast? := by
  rw [pathJoin, List.append_assoc]
  rw [List.getLast?_append_of_ne_nil _ (show sepOf p ++ x ≠ [] by simp [hx])]
  exact List.getLast?_append_of_ne_nil _ hx

theorem getLast_not_slash (x : Str) (hs : '/' ∉ x) : x.getLast? ≠ some '/' := by
  intro h
  exact hs (List.mem_of_getLast?_eq_some h)

theorem pathJoin_valid_last (p x : Str) (hxv : validName x = true) :
    pathJoin p x ≠ [] ∧ (pathJoin p x).getLast? ≠ some '/' :=
  ⟨pathJoin_ne_nil p x (validName_ne_nil x hxv), by
    rw [pathJoin_getLast p x (validName_ne_nil x hxv)]
    exact getLast_not_slash x (validName_no_slash x hxv)⟩

theorem self_ne_pathJoin_ext (p x t : Str) (hx : x ≠ []) : p ≠ pathJoin p x ++ t := by
  intro h
  have hlen := congrArg List.length h
  have hl : 0 < x.length := List.length_pos.2 hx
  simp only [pathJoin, List.length_append] at hlen
  omega

theorem ext_append_inj_le (n1 n2 t1 t2 : Str) (hlen : n1.length ≤ n2.length)
    (h2 : '/' ∉ n2) (e1 : t1 = [] ∨ ∃ u, t1 = '/' :: u)
    (heq : n1 ++ t1 = n2 ++ t2) : n1 = n2 ∧ t1 = t2 := by
  induction n1 generalizing n2 with
  | nil =>
    cases n2 with
    | nil => exact ⟨rfl, by simpa using heq⟩
    | cons b n2' =>
      rcases e1 with rfl | ⟨u, rfl⟩
      · simp at heq
      · simp only [List.nil_append, List.cons_append, List.cons.injEq] at heq
        obtain ⟨hb, -⟩ := heq
        exact absurd (by rw [hb]; exact List.mem_cons_self b n2') h2
  | cons a n1' ih =>
    cases n2 with
    | nil => simp at hlen
    | cons b n2' =>
      simp only [List.cons_append, List.cons.injEq] at heq
      obtain ⟨rfl, heq'⟩ := heq
      have h2' : '/' ∉ n2' := fun hm => h2 (List.mem_cons_of_mem _ hm)
      obtain ⟨he, ht⟩ := ih n2' (by simpa using hlen) h2' heq'
      exact ⟨by rw [he], ht⟩

theorem ext_append_inj (n1 n2 t1 t2 : Str) (h1 : '/' ∉ n1) (h2 : '/' ∉ n2)
    (e1 : t1 = [] ∨ ∃ u, t1 = '/' :: u) (e2 : t2 = [] ∨ ∃ u, t2 = '/' :: u)
    (heq : n1 ++ t1 = n2 ++ t2) : n1 = n2 ∧ t1 = t2 := by
  rcases le_total n1.length n2.length with hle | hle
  · exact ext_append_inj_le n1 n2 t1 t2 hle h2 e1 heq
  · obtain ⟨h, h'⟩ := ext_append_inj_le n2 n1 t2 t1 hle h1 e2 heq.symm
    exact ⟨h.symm, h'.symm⟩

theorem allPaths_node (p n : Str) (fs : List Str) (subs : List Dir) :
    allPaths p (Dir.node n fs subs) =
      p :: (fs.map (pathJoin p) ++ (walkL p subs).flatMap pathsOfEntry) := by
  simp [allPaths, walk, pathsOfEntry]

theorem walkL_paths_cons (p : Str) (d : Dir) (ds : List Dir) :
    (walkL p (d :: ds)).flatMap pathsOfEntry =
      allPaths (pathJoin p d.name) d ++ (walkL p ds).flatMap pathsOfEntry := by
  simp [walkL, allPaths, List.flatMap_append]

mutual
theorem allPaths_shape : ∀ (d : Dir) (p : Str), wf d = true → p ≠ [] →
    p.getLast? ≠ some '/' → ∀ q ∈ allPaths p d,
      ∃ t, (t = [] ∨ ∃ u, t = '/' :: u) ∧ q = p ++ t
  | .node n fs subs, p, hwf, hp1, hp2, q, hq => by
    rw [allPaths_node] at hq
    rcases List.mem_cons.1 hq with rfl | hq2
    · exact ⟨[], Or.inl rfl, by simp⟩
    · rcases List.mem_append.1 hq2 with hq3 | hq4
      · obtain ⟨f, hf, rfl⟩ := List.mem_map.1 hq3
        exact ⟨'/' :: f, Or.inr ⟨f, rfl⟩, pathJoin_slash p f hp1 hp2⟩
      · obtain ⟨c, hcmem, t, hext, hqe⟩ :=
          walkL_shape subs p (wf_parts n fs subs hwf).2.2.2.2.2 q hq4
        refine ⟨'/' :: (c.name ++ t), Or.inr ⟨_, rfl⟩, ?_⟩
        rw [hqe, pathJoin_slash p c.name hp1 hp2]
        simp

theorem walkL_shape : ∀ (ds : List Dir) (p : Str), wfL ds = true →
    ∀ q ∈ (walkL p ds).flatMap pathsOfEntry,
      ∃ c ∈ ds, ∃ t, (t = [] ∨ ∃ u, t = '/' :: u) ∧ q = pathJoin p c.name ++ t
  | [], p, _, q, hq => by simp [walkL] at hq
  | d :: ds, p, hwf, q, hq => by
    obtain ⟨hwd, hwds⟩ := wfL_cons d ds hwf
    rw [walkL_paths_cons] at hq
    rcases List.mem_append.1 hq with hq1 | hq2
    · have hnv := wf_name_valid d hwd
      obtain ⟨hne, hlast⟩ := pathJoin_valid_last p d.name hnv
      obtain ⟨t, hext, hqe⟩ := allPaths_shape d (pathJoin p d.name) hwd hne hlast q hq1
      exact ⟨d, List.mem_cons_self d ds, t, hext, hqe⟩
    · obtain ⟨c, hcmem, t, hext, hqe⟩ := walkL_shape ds p hwds q hq2
      exact ⟨c, List.mem_cons_of_mem d hcmem, t, hext, hqe⟩
end

mutual
theorem allPaths_nodup : ∀ (d : Dir) (p : Str), wf d = true → (allPaths p d).Nodup
  | .node n fs subs, p, hwf => by
    obtain ⟨hn, hfv, hfnd, hnames, hdisj, hwl⟩ := wf_parts n fs subs hwf
    rw [allPaths_node, List.nodup_cons, List.nodup_append]
    refine ⟨?_, ?_, ?_, ?_⟩
    · intro hmem
      rcases List.mem_append.1 hmem with h1 | h2
      · obtain ⟨f, hf, hfe⟩ := List.mem_map.1 h1
        have hne := self_ne_pathJoin_ext p f [] (validName_ne_nil f (hfv f hf))
        rw [List.append_nil] at hne
        exact hne hfe.symm
      · obtain ⟨c, hcmem, t, hext, hqe⟩ := walkL_shape subs p hwl p h2
        have hnv := wf_name_valid c (wfL_mem subs c hcmem hwl)
        exact self_ne_pathJoin_ext p c.name t (validName_ne_nil _ hnv) hqe
    · refine List.Nodup.map ?_ hfnd
      intro a b hab
      simp only [pathJoin, List.append_assoc] at hab
      exact List.append_cancel_left (List.append_cancel_left hab)
    · exact walkL_nodup subs p hwl hnames
    · intro q hq1 hq2
      obtain ⟨f, hf, rfl⟩ := List.mem_map.1 hq1
      obtain ⟨c, hcmem, t, hext, hqe⟩ := walkL_shape subs p hwl _ hq2
      have hnv := wf_name_valid c (wfL_mem subs c hcmem hwl)
      simp only [pathJoin, List.append_assoc] at hqe
      have h2 := List.append_cancel_left (List.append_cancel_left hqe)
      obtain ⟨hfc, -⟩ := ext_append_inj f c.name [] t (validName_no_slash f (hfv f hf))
        (validName_no_slash _ hnv) (Or.inl rfl) hext (by rw [List.append_nil]; exact h2)
      exact (hdisj c hcmem) (hfc ▸ hf)

theorem walkL_nodup : ∀ (ds : List Dir) (p : Str), wfL ds = true →
    (ds.map Dir.name).Nodup → ((walkL p ds).flatMap pathsOfEntry).Nodup
  | [], p, _, _ => by simp [walkL]
  | d :: ds, p, hwf, hnames => by
    obtain ⟨hwd, hwds⟩ := wfL_cons d ds hwf
    rw [walkL_paths_cons, List.nodup_append]
    rw [List.map_cons, List.nodup_cons] at hnames
    obtain ⟨hn1, hn2⟩ := hnames
    refine ⟨allPaths_nodup d (pathJoin p d.name) hwd, walkL_nodup ds p hwds hn2, ?_⟩
    intro q hq1 hq2
    have hnv := wf_name_valid d hwd
    obtain ⟨hne, hlast⟩ := pathJoin_valid_last p d.name hnv
    obtain ⟨t1, hext1, hqe1⟩ := allPaths_shape d (pathJoin p d.name) hwd hne hlast q hq1
    obtain ⟨c, hcmem, t2, hext2, hqe2⟩ := walkL_shape ds p hwds q hq2
    have hnv2 := wf_name_valid c (wfL_mem ds c hcmem hwds)
    rw [hqe1] at hqe2
    simp only [pathJoin, List.append_assoc] at hqe2
    have h2 := List.append_cancel_left (List.append_cancel_left hqe2)
    obtain ⟨hnc, -⟩ := ext_append_inj d.name c.name t1 t2 (validName_no_slash _ hnv)
      (validName_no_slash _ hnv2) hext1 hext2 h2
    exact hn1 (hnc ▸ List.mem_map_of_mem Dir.name hcmem)
end

theorem entryMatches_sublist (kw : Str) (e : Str × List Str) :
    (entryMatches kw e).Sublist (pathsOfEntry e) := by
  obtain ⟨dp, fs⟩ := e
  simp only [entryMatches, pathsOfEntry]
  by_cases hd : isSubstr kw (lowerStr (basename dp)) = true
  · simp only [hd, if_true]
    exact List.Sublist.cons₂ dp ((List.filter_sublist fs).map (pathJoin dp))
  · simp only [hd, if_false, Bool.false_eq_true, List.nil_append]
    exact List.Sublist.cons dp ((List.filter_sublist fs).map (pathJoin dp))

theorem matchesOfWalk_sublist (kw : Str) (es : List (Str × List Str)) :
    (matchesOfWalk kw es).Sublist (es.flatMap pathsOfEntry) := by
  induction es with
  | nil => simp [matchesOfWalk]
  | cons e rest ih =>
    simp only [matchesOfWalk, List.flatMap_cons] at ih ⊢
    exact (entryMatches_sublist kw e).append ih

/-- C1: over a well-formed directory tree, the uncancelled run emits exactly
the walk's matches — the path of every visited directory whose lowered base
name contains the lowered keyword as a substring and of every file whose
lowered name does — in walk order, and the emitted list has no duplicates:
every matching entry appears exactly once and nothing else is emitted. -/
theorem uncancelled_run_exact_matches (root : Str) (d : Dir) (kw : Str)
    (hwf : wf d = true) :
    foundOf (runWorker [(root, d)] kw none) = matchesOfWalk (lowerStr kw) (walk root d) ∧
    (foundOf (runWorker [(root, d)] kw none)).Nodup := by
  have hfound : foundOf (runWorker [(root, d)] kw none) =
      matchesOfWalk (lowerStr kw) (walk root d) := by
    simp only [runWorker, walkAll, List.flatMap_cons, List.flatMap_nil, List.append_nil]
    exact runEntries_found_none _ _ 0 0
  refine ⟨hfound, ?_⟩
  rw [hfound]
  exact List.Nodup.sublist (matchesOfWalk_sublist _ _) (allPaths_nodup d root hwf)

theorem uncancelled_run_exact_matches_witness :
    wf exampleTree = true ∧
    (foundOf (runWorker [(exampleRoot, exampleTree)] ("foo".data) none) =
        matchesOfWalk (lowerStr ("foo".data)) (walk exampleRoot exampleTree) ∧
      (foundOf (runWorker [(exampleRoot, exampleTree)] ("foo".data) none)).Nodup) :=
  ⟨by decide, uncancelled_run_exact_matches exampleRoot exampleTree ("foo".data) (by decide)⟩
